import Mathlib

/-!
Shallow embedding of the widdly revisioned tiddler store.

The embedding covers the flat-file backend (package `flatfile`) and the
DynamoDB backend (package `dynamodb`, files `dynamodb.go`, `history.go`,
`tiddler.go`).  JSON blobs are modelled by the inductive `Jv`; a meta blob
(`[]byte` in Go) is an `Option Jv`, where `none` stands for nil or otherwise
unparseable bytes.  Two byte strings are identified exactly when they parse
to the same JSON tree; the flat-file backend writes the caller's meta bytes
back verbatim, so this abstraction is exact for every property proved below.

Directories are modelled as association lists from file name to content.
History file names (`<sanitized-key>#<revision>`) are modelled as `List Char`
so that the glob/regexp file-name matching done by `nextRevision` can be
stated and reasoned about directly.
-/

set_option autoImplicit false

namespace Widdly

/-- JSON value, the model of what `encoding/json` parses into
`map[string]interface{}` and friends.  Objects are association lists of
fields (Go maps; field order is irrelevant to every property below). -/
inductive Jv where
  | null : Jv
  | bool (b : Bool) : Jv
  | num (n : Int) : Jv
  | str (s : String) : Jv
  | arr (xs : List Jv) : Jv
  | obj (fs : List (String × Jv)) : Jv

/-- A JSON object body: the list of its fields. -/
abbrev JObj := List (String × Jv)

/-- `json.Unmarshal(meta, &js)` for `js : map[string]interface{}` succeeds
with an object exactly when the blob is a JSON object.  (Go also accepts the
literal `null`, leaving the map nil; the subsequent `js["revision"] = ...`
assignment would then panic, so that case is not a successful `Put` either.) -/
def Jv.asObj : Jv → Option JObj
  | .obj fs => some fs
  | _ => none

/-- Field lookup in a JSON object (`js[k]`). -/
def jGet (fs : JObj) (k : String) : Option Jv :=
  match fs with
  | [] => none
  | (k', v) :: rest => if k = k' then some v else jGet rest k

/-- Field update in a JSON object (`js[k] = v`). -/
def jSet (fs : JObj) (k : String) (v : Jv) : JObj :=
  (k, v) :: fs.filter (fun p => p.1 ≠ k)

/-- A meta blob: `some v` for bytes parsing to the JSON tree `v`, `none`
for nil or unparseable bytes. -/
abbrev MetaB := Option Jv

/-- `json.Unmarshal` of a meta blob into `map[string]interface{}`. -/
def metaObj (m : MetaB) : Option JObj := m.bind Jv.asObj

/-! ### Decimal numerals

Model of `fmt.Sprintf("%d", n)` / `strconv.Itoa` / `strconv.Atoi`
restricted to the values that arise (no int64 overflow: revisions grow by
one from 1, so overflow is unreachable in any state considered here). -/

/-- The character for a single decimal digit. -/
def digitChar : Nat → Char
  | 0 => '0' | 1 => '1' | 2 => '2' | 3 => '3' | 4 => '4'
  | 5 => '5' | 6 => '6' | 7 => '7' | 8 => '8' | 9 => '9'
  | _ => '*'

/-- Fuel-driven core of the decimal printer (structural recursion on the
fuel so that closed instances evaluate by `decide`/`rfl`). -/
def natDigitsCore : Nat → Nat → List Char
  | 0, _ => []
  | fuel + 1, n =>
    if n < 10 then [digitChar n]
    else natDigitsCore fuel (n / 10) ++ [digitChar (n % 10)]

/-- Decimal digits of `n`, most significant first (`fmt.Sprintf("%d", n)`). -/
def natDigits (n : Nat) : List Char :=
  natDigitsCore (n + 1) n

/-- Value of a list of decimal digit characters (`strconv.Atoi` on an
all-digit string). -/
def digitsToNat (l : List Char) : Nat :=
  l.foldl (fun a c => a * 10 + (c.toNat - 48)) 0

/-- Is `c` one of '0'..'9'? -/
def isDigitCh (c : Char) : Bool :=
  48 ≤ c.toNat && c.toNat ≤ 57

/-- `strconv.Itoa` for the `int` revisions of the DynamoDB backend. -/
def goItoa (n : Int) : String :=
  if n < 0 then ⟨'-' :: natDigits (-n).toNat⟩ else ⟨natDigits n.toNat⟩

/-- `strconv.Atoi`: optional sign followed by at least one digit.
(Overflow, which `Atoi` reports as an error, is unreachable here.) -/
def goAtoi (s : String) : Option Int :=
  match s.data with
  | [] => none
  | c :: rest =>
    if c = '-' then
      if rest ≠ [] ∧ rest.all isDigitCh then some (-(digitsToNat rest : Int)) else none
    else if c = '+' then
      if rest ≠ [] ∧ rest.all isDigitCh then some (digitsToNat rest : Int) else none
    else if (c :: rest).all isDigitCh then some (digitsToNat (c :: rest) : Int) else none

/-! ### Association-list stores -/

/-- First-match lookup in an association list (file-system directory /
DynamoDB table contents). -/
def alookup {α β : Type} [DecidableEq α] : List (α × β) → α → Option β
  | [], _ => none
  | (k, v) :: l, a => if a = k then some v else alookup l a

/-- Write (create or overwrite): `ioutil.WriteFile` / DynamoDB `PutItem`. -/
def awrite {α β : Type} [DecidableEq α] (l : List (α × β)) (k : α) (v : β) :
    List (α × β) :=
  (k, v) :: l.filter (fun p => p.1 ≠ k)

/-- Remove: `os.Remove` / DynamoDB `DeleteItem`. -/
def aerase {α β : Type} [DecidableEq α] (l : List (α × β)) (k : α) :
    List (α × β) :=
  l.filter (fun p => p.1 ≠ k)

/-! ### The store contract data model

Modelled from the spec: the `store` package itself (the `Tiddler` struct,
the `ErrNotFound` sentinel and the `TiddlerStore` interface) is not among
the source files; its definition follows §3/§6/§7 of the spec and its use
by the two backends present in the source. -/

/-- A tiddler as passed through the store contract. -/
structure Tiddler where
  Key : String
  Meta : MetaB
  Text : String
  WithText : Bool

/-- Store-contract errors: the NotFound sentinel versus opaque I/O or
network failures. -/
inductive StoreErr where
  | notFound : StoreErr
  | ioError : StoreErr
deriving DecidableEq

/-! ### Flat-file backend (package `flatfile`) -/

/-- `keySanitizer`: the characters replaced by `_` in file names. -/
def isHostile (c : Char) : Bool :=
  c = '/' || c = '\\' || c = ':' || c = '*' || c = '?' || c = '"' ||
  c = '>' || c = '<' || c = '|' || c = '[' || c = ']'

/-- `sanitizeKey`: replace every filesystem-hostile character with `_`. -/
def sanitizeKey (key : String) : String :=
  ⟨key.data.map (fun c => if isHostile c then '_' else c)⟩

/-- `skipHistory`: the history-exempt keys. -/
def skipHistory (key : String) : Bool :=
  key = "$:/StoryList" || key.startsWith "Draft of "

/-- The flat-file store state: the two directories.  `metaFiles` holds
`<skey>.meta` contents indexed by the sanitized key, `tidFiles` likewise for
`<skey>.tid`; `histFiles` holds the `tiddlerHistory` directory indexed by the
full file name (as a character list), with `none` for an empty file. -/
structure FlatStore where
  metaFiles : List (String × MetaB)
  tidFiles : List (String × String)
  histFiles : List (List Char × Option Jv)

/-- The store as `MustOpen` creates it: empty directories. -/
def ffEmpty : FlatStore :=
  ⟨[], [], []⟩

/-- The history file name `fmt.Sprintf("%s#%d", skey, rev)`. -/
def histName (skey : String) (rev : Nat) : List Char :=
  skey.data ++ '#' :: natDigits rev

/-- File-name matching done by `nextRevision`: the glob
`*<skey>#[1-9]*` followed by the regexp `<sep><skey>#(\d+)$` on the full
path.  Since neither the sanitized key nor a file name contains a path
separator, the regexp matches exactly when the file name is
`<skey>#<digits>` with at least one digit, and the glob additionally
requires the first digit to be 1..9. -/
def histMatch (skey : String) (name : List Char) : Option Nat :=
  if (skey.data ++ ['#']).isPrefixOf name then
    let ds := name.drop (skey.data.length + 1)
    if ds ≠ [] ∧ ds.all isDigitCh ∧ ds.head? ≠ some '0' then some (digitsToNat ds)
    else none
  else none

/-- The `maxRev` loop of `nextRevision`. -/
def maxRevFold (skey : String) (files : List (List Char × Option Jv))
    (acc : Nat) : Nat :=
  match files with
  | [] => acc
  | (name, _) :: rest =>
    match histMatch skey name with
    | some rev => maxRevFold skey rest (if rev > acc then rev else acc)
    | none => maxRevFold skey rest acc

/-- `flatFileStore.nextRevision`: one more than the largest revision among
the history files for the sanitized key. -/
def ffNextRevision (s : FlatStore) (skey : String) : Nat :=
  maxRevFold skey s.histFiles 0 + 1

/-- `flatFileStore.Get`: read `<skey>.meta` and `<skey>.tid`; a missing
file yields `ErrNotFound`.  (Read failures other than non-existence are
surfaced as distinct I/O errors in the source; the model injects no
filesystem faults, so that branch does not arise.) -/
def ffGet (s : FlatStore) (key : String) : Except StoreErr Tiddler :=
  let skey := sanitizeKey key
  match alookup s.metaFiles skey with
  | none => .error .notFound
  | some meta =>
    match alookup s.tidFiles skey with
    | none => .error .notFound
    | some text => .ok ⟨key, meta, text, true⟩

/-- `flatFileStore.Put`: unmarshal the meta (failure aborts with the
unmarshal error), write `<skey>.tid`, compute the next revision, write
`<skey>.meta` — note: the source writes `tiddler.Meta`, the caller's
original bytes, not the marshalled object with the `revision` field it
just computed into the dead variable `data` — and, unless the key is
history-exempt, write the history snapshot (meta plus `revision` and
`text`) under `<skey>#<rev>`. -/
def ffPut (s : FlatStore) (t : Tiddler) : Except StoreErr (Nat × FlatStore) :=
  match metaObj t.Meta with
  | none => .error .ioError
  | some js =>
    let skey := sanitizeKey t.Key
    let s1 : FlatStore := { s with tidFiles := awrite s.tidFiles skey t.Text }
    let rev := ffNextRevision s1 skey
    let s2 : FlatStore := { s1 with metaFiles := awrite s1.metaFiles skey t.Meta }
    if skipHistory t.Key then .ok (rev, s2)
    else
      let hist := Jv.obj (jSet (jSet js "revision" (Jv.num rev)) "text" (Jv.str t.Text))
      .ok (rev, { s2 with histFiles := awrite s2.histFiles (histName skey rev) (some hist) })

/-- `flatFileStore.Delete`: unless the key is history-exempt, write an
empty file at `<skey>#<nextRevision>`; then remove `<skey>.meta` and
`<skey>.tid`.  `os.Remove` on a missing file fails, and that failure is
returned as an (I/O) error after any earlier steps have already taken
effect, so the result carries both the final state and the outcome. -/
def ffDelete (s : FlatStore) (key : String) : FlatStore × Option StoreErr :=
  let skey := sanitizeKey key
  let s1 : FlatStore :=
    if skipHistory key then s
    else { s with histFiles := awrite s.histFiles (histName skey (ffNextRevision s skey)) none }
  match alookup s1.metaFiles skey with
  | none => (s1, some .ioError)
  | some _ =>
    let s2 : FlatStore := { s1 with metaFiles := aerase s1.metaFiles skey }
    match alookup s2.tidFiles skey with
    | none => (s2, some .ioError)
    | some _ => ({ s2 with tidFiles := aerase s2.tidFiles skey }, none)

/-- Run a sequence of `Put` calls, collecting the returned revisions;
`none` if any `Put` fails. -/
def ffPutSeq (s : FlatStore) : List Tiddler → Option (List Nat × FlatStore)
  | [] => some ([], s)
  | t :: ts =>
    match ffPut s t with
    | .error _ => none
    | .ok (rev, s') =>
      match ffPutSeq s' ts with
      | none => none
      | some (revs, s'') => some (rev :: revs, s'')

/-! ### DynamoDB backend (package `dynamodb`)

Network calls can fail; the claims that depend on failures take explicit
fault flags for the corresponding `GetItem`/`DeleteItem` calls.  Marshalling
a well-typed item and unmarshalling it back through DynamoDB attribute
values is modelled as exact. -/

/-- An item of the `tiddlers` table: `dynamodbattribute.MarshalMap` of a
`store.Tiddler` (all four exported fields are stored). -/
structure DynItem where
  Key : String
  Meta : MetaB
  Text : String
  WithText : Bool

/-- An item of the `tiddlers_history` table (a `TiddlerRevision`). -/
structure DynHistItem where
  Key : String
  Revision : Int
  Text : String

/-- The two DynamoDB tables.  `tiddlers` is keyed by `Key`, `history` by
the composite `(Key, Revision)`. -/
structure DynDB where
  tiddlers : List (String × DynItem)
  history : List ((String × Int) × DynHistItem)

/-- Freshly created (empty) tables. -/
def dynEmpty : DynDB :=
  ⟨[], []⟩

/-- `dynamodbStore.NextRevision`: 1 for history-exempt keys; otherwise read
the current item, parse the string `revision` field out of its meta and add
one, defaulting to 1 whenever the item is absent (the empty `GetItem` result
unmarshals to the zero `Tiddler`, whose nil meta fails `GetMeta`) or the
meta or revision cannot be parsed.  (A present but non-string `revision`
would make the Go type assertion panic; no state reachable by these
operations stores one.) -/
def dynNextRevision (d : DynDB) (key : String) : Int :=
  if skipHistory key then 1
  else
    match alookup d.tiddlers key with
    | none => 1
    | some item =>
      match metaObj item.Meta with
      | none => 1
      | some js =>
        match jGet js "revision" with
        | some (.str s) =>
          match goAtoi s with
          | some n => n + 1
          | none => 1
        | _ => 1

/-- `TiddlerData.Put`: unmarshal the meta (failure aborts), compute the next
revision, set `revision` (as a decimal string) in the meta, and store the
re-marshalled tiddler under `Key`, returning the revision. -/
def dynDataPut (d : DynDB) (t : Tiddler) : Except StoreErr (Int × DynDB) :=
  match metaObj t.Meta with
  | none => .error .ioError
  | some js =>
    let rev := dynNextRevision d t.Key
    let meta' := Jv.obj (jSet js "revision" (Jv.str (goItoa rev)))
    let item : DynItem := ⟨t.Key, some meta', t.Text, t.WithText⟩
    .ok (rev, { d with tiddlers := awrite d.tiddlers t.Key item })

/-- `dynamodbStore.Put`: store the tiddler, then — unless the key is
history-exempt — store a `TiddlerRevision` snapshot under `(Key, rev)`. -/
def dynPut (d : DynDB) (t : Tiddler) : Except StoreErr (Int × DynDB) :=
  match dynDataPut d t with
  | .error e => .error e
  | .ok (rev, d') =>
    if skipHistory t.Key then .ok (rev, d')
    else .ok (rev, { d' with history := awrite d'.history (t.Key, rev) ⟨t.Key, rev, t.Text⟩ })

/-- `dynamodbStore.Get`: a failing `GetItem` call is logged and mapped to
`ErrNotFound`; a successful call on a missing key yields an empty item that
unmarshals to the zero `Tiddler` and is returned with a nil error; in every
successful case `WithText` is set to `true` before returning. -/
def dynGet (d : DynDB) (getFail : Bool) (key : String) : Except StoreErr Tiddler :=
  if getFail then .error .notFound
  else
    match alookup d.tiddlers key with
    | none => .ok ⟨"", none, "", true⟩
    | some it => .ok ⟨it.Key, it.Meta, it.Text, true⟩

/-- `bytes.Contains(meta, []byte("\x22$:/tags/Macro\x22"))` under the JSON
abstraction: some string value or object key in the tree is exactly the
macro tag (marshalling escapes quotes, so the quoted marker occurs in the
marshalled bytes exactly at whole string values/keys equal to it). -/
def jvHasTagMarker : Jv → Bool
  | .null => false
  | .bool _ => false
  | .num _ => false
  | .str s => s = "$:/tags/Macro"
  | .arr xs => xs.attach.any (fun x => jvHasTagMarker x.1)
  | .obj fs => fs.attach.any (fun f => f.1.1 = "$:/tags/Macro" || jvHasTagMarker f.1.2)
decreasing_by
  · have := List.sizeOf_lt_of_mem x.2
    simp only [Jv.arr.sizeOf_spec]
    omega
  · have h1 := List.sizeOf_lt_of_mem f.2
    have h2 : sizeOf f.1.2 < sizeOf f.1 := by
      obtain ⟨⟨k, v⟩, hf⟩ := f
      simp only [Prod.mk.sizeOf_spec]
      omega
    simp only [Jv.obj.sizeOf_spec]
    omega

/-- The macro-marker test on a meta blob (nil bytes contain nothing). -/
def metaHasTagMarker (m : MetaB) : Bool :=
  match m with
  | none => false
  | some v => jvHasTagMarker v

/-- The body of the `for _, t := range tiddlers` loop in
`dynamodbStore.All`, acting on the loop variable. -/
def dynAllRangeBody (t : Tiddler) : Tiddler :=
  if metaHasTagMarker t.Meta then { t with WithText := true } else t

/-- `dynamodbStore.All` (fault-free path): scan the `tiddlers` table and
unmarshal every item.  The `for _, t := range tiddlers` loop then applies
`dynAllRangeBody` to a copy of each element; the mutated copies are
discarded, so the loop leaves the returned slice unchanged. -/
def dynAll (d : DynDB) : List Tiddler :=
  let tiddlers := d.tiddlers.map (fun p => (⟨p.2.Key, p.2.Meta, p.2.Text, p.2.WithText⟩ : Tiddler))
  let _ := tiddlers.map dynAllRangeBody
  tiddlers

/-- The `for i := 1; i <= currentRev; i++` history-deletion loop of
`dynamodbStore.Delete`, starting at `i` with `fuel` iterations left: each
`TiddlerHistory.Delete(key, i)` whose `DeleteItem` call fails (per
`histFails`) is only logged; the others remove `(key, i)`. -/
def delHistLoop (key : String) (histFails : Int → Bool) :
    Int → Nat → List ((String × Int) × DynHistItem) →
    List ((String × Int) × DynHistItem)
  | _, 0, h => h
  | i, fuel + 1, h =>
    let h' := if histFails i then h else aerase h (key, i)
    delHistLoop key histFails (i + 1) fuel h'

/-- `dynamodbStore.Delete`: `Get` the tiddler (failure aborts), delete the
item from the `tiddlers` table (failure aborts), parse the current revision
out of the fetched meta (failure aborts, with the item already removed),
then best-effort delete history items for revisions 1..currentRev and
report success. -/
def dynDelete (d : DynDB) (getFail dataDelFail : Bool) (histFails : Int → Bool)
    (key : String) : DynDB × Option StoreErr :=
  match dynGet d getFail key with
  | .error _ => (d, some .ioError)
  | .ok t =>
    if dataDelFail then (d, some .ioError)
    else
      let d1 : DynDB := { d with tiddlers := aerase d.tiddlers key }
      match metaObj t.Meta with
      | none => (d1, some .ioError)
      | some js =>
        match jGet js "revision" with
        | some (.str srev) =>
          match goAtoi srev with
          | none => (d1, some .ioError)
          | some n =>
            ({ d1 with history := delHistLoop key histFails 1 n.toNat d1.history }, none)
        | _ => (d1, some .ioError)

/-- Run a sequence of DynamoDB `Put` calls, collecting the returned
revisions; `none` if any `Put` fails. -/
def dynPutSeq (d : DynDB) : List Tiddler → Option (List Int × DynDB)
  | [] => some ([], d)
  | t :: ts =>
    match dynPut d t with
    | .error _ => none
    | .ok (rev, d') =>
      match dynPutSeq d' ts with
      | none => none
      | some (revs, d'') => some (rev :: revs, d'')

/-! ### Association-list lemmas -/

theorem alookup_awrite_self {α β : Type} [DecidableEq α] (l : List (α × β))
    (k : α) (v : β) : alookup (awrite l k v) k = some v := by
  simp [awrite, alookup]

theorem alookup_filter_ne {α β : Type} [DecidableEq α] (l : List (α × β))
    (k k' : α) (h : k' ≠ k) :
    alookup (l.filter (fun p => p.1 ≠ k)) k' = alookup l k' := by
  induction l with
  | nil => rfl
  | cons q rest ih =>
    obtain ⟨a, b⟩ := q
    rw [List.filter_cons]
    by_cases hak : a = k
    · rw [if_neg (by simp [hak])]
      rw [alookup, if_neg (by rw [hak]; exact h)]
      exact ih
    · rw [if_pos (by simp [hak])]
      rw [alookup, alookup]
      by_cases ha : k' = a
      · rw [if_pos ha, if_pos ha]
      · rw [if_neg ha, if_neg ha]
        exact ih

theorem alookup_awrite_ne {α β : Type} [DecidableEq α] (l : List (α × β))
    (k k' : α) (v : β) (h : k' ≠ k) :
    alookup (awrite l k v) k' = alookup l k' := by
  unfold awrite
  rw [alookup, if_neg h]
  exact alookup_filter_ne l k k' h

theorem alookup_aerase_self {α β : Type} [DecidableEq α] (l : List (α × β))
    (k : α) : alookup (aerase l k) k = none := by
  induction l with
  | nil => rfl
  | cons p rest ih =>
    obtain ⟨a, b⟩ := p
    by_cases ha : a = k
    · subst ha
      simpa [aerase, List.filter_cons] using ih
    · simp only [aerase, List.filter_cons, ne_eq, decide_not, ha, decide_False,
        Bool.not_false, if_true, alookup, if_neg (Ne.symm ha)]
      simpa [aerase] using ih

theorem alookup_eq_none {α β : Type} [DecidableEq α] (l : List (α × β)) (k : α)
    (h : ∀ p ∈ l, p.1 ≠ k) : alookup l k = none := by
  induction l with
  | nil => rfl
  | cons p rest ih =>
    have hp := h p (List.mem_cons_self _ _)
    simp only [alookup, if_neg (Ne.symm hp)]
    exact ih (fun q hq => h q (List.mem_cons_of_mem _ hq))

theorem awrite_of_fresh {α β : Type} [DecidableEq α] (l : List (α × β))
    (k : α) (v : β) (h : ∀ p ∈ l, p.1 ≠ k) : awrite l k v = (k, v) :: l := by
  unfold awrite
  congr 1
  exact List.filter_eq_self.mpr (fun p hp => by simpa using h p hp)

theorem alookup_filter_none {α β : Type} [DecidableEq α] (l : List (α × β))
    (k : α) (p : α × β → Bool) (h : alookup l k = none) :
    alookup (l.filter p) k = none := by
  induction l with
  | nil => rfl
  | cons q rest ih =>
    simp only [alookup] at h
    rcases Decidable.em (k = q.1) with hq | hq
    · simp [if_pos hq] at h
    · simp only [if_neg hq] at h
      simp only [List.filter_cons]
      rcases Decidable.em (p q = true) with hpq | hpq
      · simp only [hpq, if_true, alookup, if_neg hq]
        exact ih h
      · simp only [hpq, if_false]
        exact ih h

/-! ### JSON object lemmas -/

theorem jGet_jSet_self (fs : JObj) (k : String) (v : Jv) :
    jGet (jSet fs k v) k = some v := by
  simp [jGet, jSet]

/-! ### Decimal numeral lemmas -/

theorem natDigitsCore_congr : ∀ {f₁ f₂ n : Nat}, n < f₁ → n < f₂ →
    natDigitsCore f₁ n = natDigitsCore f₂ n := by
  intro f₁
  induction f₁ with
  | zero => intro f₂ n h; omega
  | succ g ih =>
    intro f₂ n h₁ h₂
    cases f₂ with
    | zero => omega
    | succ g' =>
      simp only [natDigitsCore]
      by_cases h10 : n < 10
      · simp [h10]
      · simp only [h10, if_false]
        have hdiv : n / 10 < n := Nat.div_lt_self (by omega) (by omega)
        rw [ih (show n / 10 < g by omega) (show n / 10 < g' by omega)]

/-- One-step unfolding of `natDigits`. -/
theorem natDigits_eq (n : Nat) :
    natDigits n = if n < 10 then [digitChar n]
      else natDigits (n / 10) ++ [digitChar (n % 10)] := by
  unfold natDigits
  conv_lhs => rw [natDigitsCore]
  by_cases h10 : n < 10
  · simp [h10]
  · simp only [h10, if_false]
    have hdiv : n / 10 < n := Nat.div_lt_self (by omega) (by omega)
    rw [natDigitsCore_congr (show n / 10 < n by omega)
      (show n / 10 < n / 10 + 1 by omega)]

theorem natDigits_ne_nil (n : Nat) : natDigits n ≠ [] := by
  rw [natDigits_eq]
  by_cases h10 : n < 10 <;> simp [h10]

theorem isDigitCh_digitChar {n : Nat} (h : n < 10) :
    isDigitCh (digitChar n) = true := by
  interval_cases n <;> decide

theorem digitChar_ne_zero {n : Nat} (h1 : 1 ≤ n) (h2 : n < 10) :
    digitChar n ≠ '0' := by
  interval_cases n <;> decide

theorem natDigits_all_digit (n : Nat) : (natDigits n).all isDigitCh = true := by
  induction n using Nat.strong_induction_on with
  | _ n ih =>
    rw [natDigits_eq]
    by_cases h10 : n < 10
    · simp [h10, isDigitCh_digitChar h10]
    · have hdiv : n / 10 < n := Nat.div_lt_self (by omega) (by omega)
      simp only [h10, if_false, List.all_append, List.all_cons, List.all_nil,
        Bool.and_true, Bool.and_eq_true]
      exact ⟨ih _ hdiv, isDigitCh_digitChar (Nat.mod_lt _ (by omega))⟩

theorem natDigits_head_ne_zero {n : Nat} (h : 1 ≤ n) :
    (natDigits n).head? ≠ some '0' := by
  induction n using Nat.strong_induction_on with
  | _ n ih =>
    rw [natDigits_eq]
    by_cases h10 : n < 10
    · simpa [h10] using digitChar_ne_zero h h10
    · have hdiv : n / 10 < n := Nat.div_lt_self (by omega) (by omega)
      have hne := natDigits_ne_nil (n / 10)
      simp only [h10, if_false]
      rw [List.head?_append_of_ne_nil _ hne]
      exact ih _ hdiv (by omega)

theorem digitsToNat_append (xs : List Char) (c : Char) :
    digitsToNat (xs ++ [c]) = digitsToNat xs * 10 + (c.toNat - 48) := by
  simp [digitsToNat, List.foldl_append]

theorem toNat_digitChar {n : Nat} (h : n < 10) :
    (digitChar n).toNat - 48 = n := by
  interval_cases n <;> decide

theorem digitsToNat_natDigits (n : Nat) : digitsToNat (natDigits n) = n := by
  induction n using Nat.strong_induction_on with
  | _ n ih =>
    rw [natDigits_eq]
    by_cases h10 : n < 10
    · simpa [h10, digitsToNat] using toNat_digitChar h10
    · have hdiv : n / 10 < n := Nat.div_lt_self (by omega) (by omega)
      simp only [h10, if_false, digitsToNat_append, ih _ hdiv,
        toNat_digitChar (Nat.mod_lt n (by omega))]
      omega

/-! ### History file-name lemmas -/

theorem histMatch_histName (skey : String) {r : Nat} (h : 1 ≤ r) :
    histMatch skey (histName skey r) = some r := by
  unfold histMatch histName
  have hpre : (skey.data ++ ['#']).isPrefixOf (skey.data ++ '#' :: natDigits r) = true := by
    rw [ List.isPrefixOf_iff_prefix]
    have : skey.data ++ '#' :: natDigits r = (skey.data ++ ['#']) ++ natDigits r := by
      simp
    rw [this]
    exact List.prefix_append _ _
  rw [if_pos hpre]
  have hdrop : (skey.data ++ '#' :: natDigits r).drop (skey.data.length + 1)
      = natDigits r := by
    have : skey.data ++ '#' :: natDigits r = (skey.data ++ ['#']) ++ natDigits r := by
      simp
    rw [this]
    have hlen : (skey.data ++ ['#']).length = skey.data.length + 1 := by simp
    rw [← hlen]
    exact List.drop_left _ _
  simp only [hdrop]
  rw [if_pos ⟨natDigits_ne_nil r, natDigits_all_digit r, by
    intro hcontra
    exact natDigits_head_ne_zero h hcontra⟩]
  rw [digitsToNat_natDigits]

/-- Every match found by the `maxRev` loop is bounded by its result. -/
theorem maxRevFold_bound (skey : String) :
    ∀ (files : List (List Char × Option Jv)) (acc : Nat),
      (∀ p ∈ files, ∀ v, histMatch skey p.1 = some v → v ≤ maxRevFold skey files acc)
      ∧ acc ≤ maxRevFold skey files acc := by
  intro files
  induction files with
  | nil => exact fun acc => ⟨fun p hp => by simp at hp, Nat.le_refl _⟩
  | cons q rest ih =>
    intro acc
    obtain ⟨name, c⟩ := q
    cases hm : histMatch skey name with
    | some rev =>
      have hstep : maxRevFold skey ((name, c) :: rest) acc
          = maxRevFold skey rest (if rev > acc then rev else acc) := by
        rw [maxRevFold, hm]
      rw [hstep]
      have hite_acc : acc ≤ (if rev > acc then rev else acc) := by split <;> omega
      have hite_rev : rev ≤ (if rev > acc then rev else acc) := by split <;> omega
      have hfold := (ih (if rev > acc then rev else acc)).2
      constructor
      · intro p hp v hv
        rcases List.mem_cons.mp hp with hq | hq
        · subst hq
          have hv' : histMatch skey name = some v := hv
          rw [hm] at hv'
          obtain rfl : rev = v := by injection hv'
          omega
        · exact (ih _).1 p hq v hv
      · omega
    | none =>
      have hstep : maxRevFold skey ((name, c) :: rest) acc
          = maxRevFold skey rest acc := by
        rw [maxRevFold, hm]
      rw [hstep]
      constructor
      · intro p hp v hv
        rcases List.mem_cons.mp hp with hq | hq
        · subst hq
          have hv' : histMatch skey name = some v := hv
          rw [hm] at hv'
          cases hv'
        · exact (ih acc).1 p hq v hv
      · exact (ih acc).2

/-- If all matches are bounded by the accumulator, the loop returns it. -/
theorem maxRevFold_eq_acc (skey : String) :
    ∀ (files : List (List Char × Option Jv)) (acc : Nat),
      (∀ p ∈ files, ∀ v, histMatch skey p.1 = some v → v ≤ acc) →
      maxRevFold skey files acc = acc := by
  intro files
  induction files with
  | nil => intro acc _; rfl
  | cons q rest ih =>
    intro acc hb
    obtain ⟨name, c⟩ := q
    cases hm : histMatch skey name with
    | some rev =>
      have hrev : rev ≤ acc := hb (name, c) (List.mem_cons_self _ _) rev hm
      have hstep : maxRevFold skey ((name, c) :: rest) acc
          = maxRevFold skey rest (if rev > acc then rev else acc) := by
        rw [maxRevFold, hm]
      rw [hstep, if_neg (by omega)]
      exact ih acc (fun p hp => hb p (List.mem_cons_of_mem _ hp))
    | none =>
      have hstep : maxRevFold skey ((name, c) :: rest) acc
          = maxRevFold skey rest acc := by
        rw [maxRevFold, hm]
      rw [hstep]
      exact ih acc (fun p hp => hb p (List.mem_cons_of_mem _ hp))

/-- No existing history file bears the name of the next revision. -/
theorem histName_next_fresh (skey : String) (s : FlatStore) :
    ∀ p ∈ s.histFiles, p.1 ≠ histName skey (ffNextRevision s skey) := by
  intro p hp hname
  have hmatch : histMatch skey p.1 = some (ffNextRevision s skey) := by
    rw [hname]
    exact histMatch_histName skey (Nat.le_add_left 1 _)
  have hle := (maxRevFold_bound skey s.histFiles 0).1 p hp _ hmatch
  unfold ffNextRevision at hle
  omega

/-! ### `Itoa`/`Atoi` lemmas -/

theorem isDigitCh_all_natDigits (n : Nat) : (natDigits n).all isDigitCh = true :=
  natDigits_all_digit n

theorem natDigits_head_not_sign (n : Nat) :
    ∀ c cs, natDigits n = c :: cs → c ≠ '-' ∧ c ≠ '+' := by
  intro c cs heq
  have hall := natDigits_all_digit n
  rw [heq] at hall
  simp only [List.all_cons, Bool.and_eq_true] at hall
  have hc := hall.1
  constructor
  · intro hcon; rw [hcon] at hc; simp [isDigitCh] at hc
  · intro hcon; rw [hcon] at hc; simp [isDigitCh] at hc

theorem goAtoi_digits (l : List Char) (hne : l ≠ []) (hall : l.all isDigitCh = true)
    (hsign : ∀ c cs, l = c :: cs → c ≠ '-' ∧ c ≠ '+') :
    goAtoi ⟨l⟩ = some (digitsToNat l : Int) := by
  unfold goAtoi
  cases l with
  | nil => exact absurd rfl hne
  | cons c cs =>
    obtain ⟨hm, hp⟩ := hsign c cs rfl
    simp only
    rw [if_neg hm, if_neg hp, if_pos hall]

/-- Parsing a printed revision recovers it (`Atoi ∘ Itoa = id`). -/
theorem goAtoi_goItoa (n : Int) : goAtoi (goItoa n) = some n := by
  unfold goItoa
  by_cases hneg : n < 0
  · rw [if_pos hneg]
    show goAtoi ⟨'-' :: natDigits (-n).toNat⟩ = some n
    unfold goAtoi
    simp only
    rw [if_pos trivial, if_pos ⟨natDigits_ne_nil _, natDigits_all_digit _⟩,
      digitsToNat_natDigits]
    congr 1
    omega
  · rw [if_neg hneg]
    rw [goAtoi_digits _ (natDigits_ne_nil _) (natDigits_all_digit _)
      (natDigits_head_not_sign _), digitsToNat_natDigits]
    congr 1
    omega

/-! ### Flat-file step lemmas -/

/-- Successful `Put` on a history-exempt key: revision and resulting state. -/
theorem ffPut_eq_skip {s : FlatStore} {t : Tiddler} {js : JObj}
    (hjs : metaObj t.Meta = some js) (hskip : skipHistory t.Key = true) :
    ffPut s t = .ok (ffNextRevision s (sanitizeKey t.Key),
      ⟨awrite s.metaFiles (sanitizeKey t.Key) t.Meta,
       awrite s.tidFiles (sanitizeKey t.Key) t.Text,
       s.histFiles⟩) := by
  unfold ffPut
  rw [hjs]
  simp only [hskip, if_true]
  rfl

/-- Successful `Put` on a key with history: revision and resulting state. -/
theorem ffPut_eq_hist {s : FlatStore} {t : Tiddler} {js : JObj}
    (hjs : metaObj t.Meta = some js) (hskip : skipHistory t.Key = false) :
    ffPut s t = .ok (ffNextRevision s (sanitizeKey t.Key),
      ⟨awrite s.metaFiles (sanitizeKey t.Key) t.Meta,
       awrite s.tidFiles (sanitizeKey t.Key) t.Text,
       awrite s.histFiles
         (histName (sanitizeKey t.Key) (ffNextRevision s (sanitizeKey t.Key)))
         (some (Jv.obj (jSet (jSet js "revision"
           (Jv.num (ffNextRevision s (sanitizeKey t.Key)))) "text"
           (Jv.str t.Text))))⟩) := by
  unfold ffPut
  rw [hjs]
  simp only [hskip, if_false]
  rfl

/-- Writing the next revision's history file raises the scan maximum to it. -/
theorem maxRev_after_write (skey : String) (s : FlatStore) (c : Option Jv) :
    maxRevFold skey
      (awrite s.histFiles (histName skey (ffNextRevision s skey)) c) 0
      = ffNextRevision s skey := by
  set r := ffNextRevision s skey with hr
  have hfresh := histName_next_fresh skey s
  rw [awrite_of_fresh _ _ _ (fun p hp => hfresh p hp)]
  have hm : histMatch skey (histName skey r) = some r :=
    histMatch_histName skey (by rw [hr]; unfold ffNextRevision; omega)
  have hstep : maxRevFold skey ((histName skey r, c) :: s.histFiles) 0
      = maxRevFold skey s.histFiles (if r > 0 then r else 0) := by
    rw [maxRevFold, hm]
  rw [hstep, if_pos (by rw [hr]; unfold ffNextRevision; omega)]
  apply maxRevFold_eq_acc
  intro p hp v hv
  have := (maxRevFold_bound skey s.histFiles 0).1 p hp v hv
  rw [hr]
  unfold ffNextRevision
  omega

/-- A successful `Put` with history returns the scan-based next revision
and advances the next revision for its key by exactly one. -/
theorem ffNextRevision_after_put {s : FlatStore} {t : Tiddler} {js : JObj}
    {r : Nat} {s' : FlatStore} (hjs : metaObj t.Meta = some js)
    (hskip : skipHistory t.Key = false) (hput : ffPut s t = .ok (r, s')) :
    r = ffNextRevision s (sanitizeKey t.Key) ∧
    ffNextRevision s' (sanitizeKey t.Key) = r + 1 := by
  rw [ffPut_eq_hist hjs hskip] at hput
  obtain ⟨h1, h2⟩ : r = ffNextRevision s (sanitizeKey t.Key) ∧
      s' = ⟨awrite s.metaFiles (sanitizeKey t.Key) t.Meta,
        awrite s.tidFiles (sanitizeKey t.Key) t.Text,
        awrite s.histFiles
          (histName (sanitizeKey t.Key) (ffNextRevision s (sanitizeKey t.Key)))
          (some (Jv.obj (jSet (jSet js "revision"
            (Jv.num (ffNextRevision s (sanitizeKey t.Key)))) "text"
            (Jv.str t.Text))))⟩ := by
    have := hput
    injection this with h
    injection h with h1 h2
    exact ⟨h1.symm, h2.symm⟩
  subst h1
  refine ⟨rfl, ?_⟩
  rw [h2]
  show maxRevFold (sanitizeKey t.Key) (awrite s.histFiles _ _) 0 + 1 = _
  rw [maxRev_after_write]

/-! ### DynamoDB step lemmas -/

/-- Successful DynamoDB `Put` on a history-exempt key. -/
theorem dynPut_eq_skip {d : DynDB} {t : Tiddler} {js : JObj}
    (hjs : metaObj t.Meta = some js) (hskip : skipHistory t.Key = true) :
    dynPut d t = .ok (dynNextRevision d t.Key,
      ⟨awrite d.tiddlers t.Key
        ⟨t.Key, some (Jv.obj (jSet js "revision"
          (Jv.str (goItoa (dynNextRevision d t.Key))))), t.Text, t.WithText⟩,
       d.history⟩) := by
  unfold dynPut dynDataPut
  rw [hjs]
  simp only [hskip, if_true]

/-- Reading the next revision when an item with a parsable string
`revision` field is stored. -/
theorem dynNextRevision_of_stored {d : DynDB} {k : String} {item : DynItem}
    (hskip : skipHistory k = false)
    (hlook : alookup d.tiddlers k = some item)
    {fs : JObj} (hmeta : item.Meta = some (Jv.obj fs))
    {s : String} (hrev : jGet fs "revision" = some (Jv.str s))
    {n : Int} (hatoi : goAtoi s = some n) :
    dynNextRevision d k = n + 1 := by
  unfold dynNextRevision
  rw [if_neg (by simp [hskip])]
  have hm : metaObj item.Meta = some fs := by rw [hmeta]; rfl
  simp only [hlook, hm, hrev, hatoi]

/-- Successful DynamoDB `Put` on a key with history. -/
theorem dynPut_eq_hist {d : DynDB} {t : Tiddler} {js : JObj}
    (hjs : metaObj t.Meta = some js) (hskip : skipHistory t.Key = false) :
    dynPut d t = .ok (dynNextRevision d t.Key,
      ⟨awrite d.tiddlers t.Key
        ⟨t.Key, some (Jv.obj (jSet js "revision"
          (Jv.str (goItoa (dynNextRevision d t.Key))))), t.Text, t.WithText⟩,
       awrite d.history (t.Key, dynNextRevision d t.Key)
         ⟨t.Key, dynNextRevision d t.Key, t.Text⟩⟩) := by
  unfold dynPut dynDataPut
  rw [hjs]
  simp only [hskip, if_false]
  rfl

/-- A successful DynamoDB `Put` advances the next revision for its
(non-exempt) key by exactly one. -/
theorem dynNextRevision_after_put {d : DynDB} {t : Tiddler} {js : JObj}
    {r : Int} {d' : DynDB} (hjs : metaObj t.Meta = some js)
    (hskip : skipHistory t.Key = false) (hput : dynPut d t = .ok (r, d')) :
    r = dynNextRevision d t.Key ∧ dynNextRevision d' t.Key = r + 1 := by
  rw [dynPut_eq_hist hjs hskip] at hput
  obtain ⟨h1, h2⟩ : r = dynNextRevision d t.Key ∧
      d' = ⟨awrite d.tiddlers t.Key
        ⟨t.Key, some (Jv.obj (jSet js "revision"
          (Jv.str (goItoa (dynNextRevision d t.Key))))), t.Text, t.WithText⟩,
       awrite d.history (t.Key, dynNextRevision d t.Key)
         ⟨t.Key, dynNextRevision d t.Key, t.Text⟩⟩ := by
    have := hput
    injection this with h
    injection h with h1 h2
    exact ⟨h1.symm, h2.symm⟩
  subst h1
  refine ⟨rfl, ?_⟩
  rw [h2]
  exact dynNextRevision_of_stored hskip (alookup_awrite_self _ _ _) rfl
    (jGet_jSet_self _ _ _) (goAtoi_goItoa _)

/-! ### Sequence lemmas -/

/-- Unfolding a `Put` run after a successful first `Put`. -/
theorem ffPutSeq_cons_ok {s : FlatStore} {t : Tiddler} {r : Nat}
    {s1 : FlatStore} (hput : ffPut s t = .ok (r, s1)) (ts : List Tiddler) :
    ffPutSeq s (t :: ts) = match ffPutSeq s1 ts with
      | none => none
      | some (revs, s2) => some (r :: revs, s2) := by
  rw [ffPutSeq, hput]

/-- Unfolding a DynamoDB `Put` run after a successful first `Put`. -/
theorem dynPutSeq_cons_ok {d : DynDB} {t : Tiddler} {r : Int}
    {d1 : DynDB} (hput : dynPut d t = .ok (r, d1)) (ts : List Tiddler) :
    dynPutSeq d (t :: ts) = match dynPutSeq d1 ts with
      | none => none
      | some (revs, d2) => some (r :: revs, d2) := by
  rw [dynPutSeq, hput]

/-- Revisions returned by a run of flat-file `Put`s on one non-exempt key:
consecutive numbers starting at the store's next revision for that key. -/
theorem ffPutSeq_revs_aux (k : String) (hk : skipHistory k = false) :
    ∀ (ts : List Tiddler) (s : FlatStore),
      (∀ t ∈ ts, t.Key = k ∧ (metaObj t.Meta).isSome) →
      (ffPutSeq s ts).map Prod.fst
        = some ((List.range ts.length).map
            (fun i => ffNextRevision s (sanitizeKey k) + i)) := by
  intro ts
  induction ts with
  | nil => intro s _; simp [ffPutSeq]
  | cons t ts ih =>
    intro s h
    obtain ⟨hkey, hsome⟩ := h t (List.mem_cons_self _ _)
    obtain ⟨js, hjs⟩ := Option.isSome_iff_exists.mp hsome
    have hskip' : skipHistory t.Key = false := by rw [hkey]; exact hk
    have hput := @ffPut_eq_hist s t js hjs hskip'
    obtain ⟨-, hnext⟩ := ffNextRevision_after_put hjs hskip' hput
    set r := ffNextRevision s (sanitizeKey t.Key) with hr
    set s' := (⟨awrite s.metaFiles (sanitizeKey t.Key) t.Meta,
       awrite s.tidFiles (sanitizeKey t.Key) t.Text,
       awrite s.histFiles (histName (sanitizeKey t.Key) r)
         (some (Jv.obj (jSet (jSet js "revision" (Jv.num r)) "text"
           (Jv.str t.Text))))⟩ : FlatStore) with hs'
    have hih := ih s' (fun u hu => h u (List.mem_cons_of_mem _ hu))
    have hnext' : ffNextRevision s' (sanitizeKey k) = r + 1 := by
      rw [← hkey]; exact hnext
    rw [hnext'] at hih
    cases hseq : ffPutSeq s' ts with
    | none => rw [hseq] at hih; cases hih
    | some p =>
      obtain ⟨revs, s''⟩ := p
      rw [hseq] at hih
      have hrevs : revs = (List.range ts.length).map (fun i => r + 1 + i) := by
        simpa using hih
      rw [ffPutSeq_cons_ok hput ts, hseq]
      have hkk : sanitizeKey t.Key = sanitizeKey k := by rw [hkey]
      have hR : ffNextRevision s (sanitizeKey k) = r := by rw [← hkk]
      simp only [List.length_cons, List.range_succ_eq_map, List.map_cons,
        List.map_map, hR, hrevs, Nat.add_zero]
      have hfun : ((fun i => r + i) ∘ Nat.succ) = (fun i => r + 1 + i) := by
        funext i
        show r + (i + 1) = r + 1 + i
        omega
      rw [hfun]
      rfl

/-- Revisions returned by a run of DynamoDB `Put`s on one non-exempt key:
consecutive numbers starting at the store's next revision for that key. -/
theorem dynPutSeq_revs_aux (k : String) (hk : skipHistory k = false) :
    ∀ (ts : List Tiddler) (d : DynDB),
      (∀ t ∈ ts, t.Key = k ∧ (metaObj t.Meta).isSome) →
      (dynPutSeq d ts).map Prod.fst
        = some ((List.range ts.length).map
            (fun (i : Nat) => dynNextRevision d k + (i : Int))) := by
  intro ts
  induction ts with
  | nil => intro d _; simp [dynPutSeq]
  | cons t ts ih =>
    intro d h
    obtain ⟨hkey, hsome⟩ := h t (List.mem_cons_self _ _)
    obtain ⟨js, hjs⟩ := Option.isSome_iff_exists.mp hsome
    have hskip' : skipHistory t.Key = false := by rw [hkey]; exact hk
    have hput := @dynPut_eq_hist d t js hjs hskip'
    obtain ⟨-, hnext⟩ := dynNextRevision_after_put hjs hskip' hput
    set r := dynNextRevision d t.Key with hr
    set d' := (⟨awrite d.tiddlers t.Key
        ⟨t.Key, some (Jv.obj (jSet js "revision" (Jv.str (goItoa r)))),
         t.Text, t.WithText⟩,
       awrite d.history (t.Key, r) ⟨t.Key, r, t.Text⟩⟩ : DynDB) with hd'
    have hih := ih d' (fun u hu => h u (List.mem_cons_of_mem _ hu))
    have hnext' : dynNextRevision d' k = r + 1 := by
      rw [← hkey]; exact hnext
    rw [hnext'] at hih
    cases hseq : dynPutSeq d' ts with
    | none => rw [hseq] at hih; cases hih
    | some p =>
      obtain ⟨revs, d''⟩ := p
      rw [hseq] at hih
      have hrevs : revs = (List.range ts.length).map
          (fun (i : Nat) => r + 1 + (i : Int)) := by
        simpa using hih
      rw [dynPutSeq_cons_ok hput ts, hseq]
      have hR : dynNextRevision d k = r := by rw [hr, hkey]
      simp only [List.length_cons, List.range_succ_eq_map, List.map_cons,
        List.map_map, hR, hrevs]
      have hfun : ((fun (i : Nat) => r + (i : Int)) ∘ Nat.succ)
          = (fun (i : Nat) => r + 1 + (i : Int)) := by
        funext i
        show r + ((i + 1 : Nat) : Int) = r + 1 + (i : Int)
        omega
      rw [hfun]
      have h0 : r + ((0 : Nat) : Int) = r := by omega
      rw [h0]
      rfl

/-- A run of flat-file `Put`s on history-exempt keys leaves the history
directory untouched. -/
theorem ffPutSeq_hist_const :
    ∀ (ts : List Tiddler) (s : FlatStore) (revs : List Nat) (s' : FlatStore),
      (∀ t ∈ ts, skipHistory t.Key = true) →
      ffPutSeq s ts = some (revs, s') → s'.histFiles = s.histFiles := by
  intro ts
  induction ts with
  | nil =>
    intro s revs s' _ hseq
    obtain ⟨-, rfl⟩ : revs = [] ∧ s' = s := by
      rw [ffPutSeq] at hseq
      injection hseq with h
      injection h with h1 h2
      exact ⟨h1.symm, h2.symm⟩
    rfl
  | cons t ts ih =>
    intro s revs s' hex hseq
    cases hjs : metaObj t.Meta with
    | none =>
      rw [ffPutSeq] at hseq
      rw [show ffPut s t = .error .ioError from by unfold ffPut; rw [hjs]] at hseq
      cases hseq
    | some js =>
      have hput := @ffPut_eq_skip s t js hjs (hex t (List.mem_cons_self _ _))
      rw [ffPutSeq_cons_ok hput ts] at hseq
      cases hseq' : ffPutSeq (⟨awrite s.metaFiles (sanitizeKey t.Key) t.Meta,
          awrite s.tidFiles (sanitizeKey t.Key) t.Text, s.histFiles⟩ : FlatStore) ts with
      | none => rw [hseq'] at hseq; cases hseq
      | some p =>
        obtain ⟨revs', s''⟩ := p
        rw [hseq'] at hseq
        obtain ⟨-, rfl⟩ : revs = ffNextRevision s (sanitizeKey t.Key) :: revs' ∧
            s' = s'' := by
          injection hseq with h
          injection h with h1 h2
          exact ⟨h1.symm, h2.symm⟩
        have hh := ih _ _ _ (fun u hu => hex u (List.mem_cons_of_mem _ hu)) hseq'
        exact hh

/-- A run of DynamoDB `Put`s on history-exempt keys leaves the history
table untouched. -/
theorem dynPutSeq_hist_const :
    ∀ (ts : List Tiddler) (d : DynDB) (revs : List Int) (d' : DynDB),
      (∀ t ∈ ts, skipHistory t.Key = true) →
      dynPutSeq d ts = some (revs, d') → d'.history = d.history := by
  intro ts
  induction ts with
  | nil =>
    intro d revs d' _ hseq
    obtain ⟨-, rfl⟩ : revs = [] ∧ d' = d := by
      rw [dynPutSeq] at hseq
      injection hseq with h
      injection h with h1 h2
      exact ⟨h1.symm, h2.symm⟩
    rfl
  | cons t ts ih =>
    intro d revs d' hex hseq
    cases hjs : metaObj t.Meta with
    | none =>
      rw [dynPutSeq] at hseq
      rw [show dynPut d t = .error .ioError from by
        unfold dynPut dynDataPut; rw [hjs]] at hseq
      cases hseq
    | some js =>
      have hput := @dynPut_eq_skip d t js hjs (hex t (List.mem_cons_self _ _))
      rw [dynPutSeq_cons_ok hput ts] at hseq
      cases hseq' : dynPutSeq (⟨awrite d.tiddlers t.Key
          ⟨t.Key, some (Jv.obj (jSet js "revision"
            (Jv.str (goItoa (dynNextRevision d t.Key))))), t.Text, t.WithText⟩,
          d.history⟩ : DynDB) ts with
      | none => rw [hseq'] at hseq; cases hseq
      | some p =>
        obtain ⟨revs', d''⟩ := p
        rw [hseq'] at hseq
        obtain ⟨-, rfl⟩ : revs = dynNextRevision d t.Key :: revs' ∧ d' = d'' := by
          injection hseq with h
          injection h with h1 h2
          exact ⟨h1.symm, h2.symm⟩
        have hh := ih _ _ _ (fun u hu => hex u (List.mem_cons_of_mem _ hu)) hseq'
        exact hh

/-! ### Concrete fixtures -/

/-- A minimal valid meta blob: `{"title":"Foo"}`. -/
def fooMeta : MetaB := some (Jv.obj [("title", Jv.str "Foo")])

/-- First `Put` of the spec's concrete scenario. -/
def fooPut1 : Tiddler := ⟨"Foo", fooMeta, "hello", false⟩

/-- Second `Put` of the spec's concrete scenario. -/
def fooPut2 : Tiddler := ⟨"Foo", fooMeta, "world", false⟩

/-- A `Put` of the history-exempt story-list key. -/
def slPut1 : Tiddler := ⟨"$:/StoryList", fooMeta, "s1", false⟩

/-- A second `Put` of the story-list key. -/
def slPut2 : Tiddler := ⟨"$:/StoryList", fooMeta, "s2", false⟩

/-- A macro-tagged document: meta contains the `$:/tags/Macro` marker. -/
def taggedMeta : MetaB :=
  some (Jv.obj [("title", Jv.str "M"), ("tags", Jv.str "$:/tags/Macro")])

/-- A `Put` of the macro-tagged document. -/
def taggedPut : Tiddler := ⟨"M", taggedMeta, "macro body", false⟩

/-- Flat-file store after `Put`ting `fooPut1`. -/
def ffFoo1 : FlatStore :=
  ((ffPut ffEmpty fooPut1).toOption.map Prod.snd).getD ffEmpty

/-- Flat-file store after `Put`ting `fooPut1` then `fooPut2`. -/
def ffFoo2 : FlatStore :=
  ((ffPutSeq ffEmpty [fooPut1, fooPut2]).map Prod.snd).getD ffEmpty

/-- Flat-file store after two `Put`s of the story-list key. -/
def ffSL2 : FlatStore :=
  ((ffPutSeq ffEmpty [slPut1, slPut2]).map Prod.snd).getD ffEmpty

/-- DynamoDB store after `Put`ting `fooPut1` then `fooPut2`. -/
def dynFoo2 : DynDB :=
  ((dynPutSeq dynEmpty [fooPut1, fooPut2]).map Prod.snd).getD dynEmpty

/-- DynamoDB store after two `Put`s of the story-list key. -/
def dynSL2 : DynDB :=
  ((dynPutSeq dynEmpty [slPut1, slPut2]).map Prod.snd).getD dynEmpty

/-- DynamoDB store after one `Put` of the story-list key. -/
def dynSL1 : DynDB :=
  ((dynPut dynEmpty slPut1).toOption.map Prod.snd).getD dynEmpty

/-- DynamoDB store after `Put`ting the macro document. -/
def dynTagged : DynDB :=
  ((dynPut dynEmpty taggedPut).toOption.map Prod.snd).getD dynEmpty

/-- The `tiddlers`-table item stored for `"Foo"` in `dynFoo2`. -/
def fooItem2 : DynItem :=
  ⟨"Foo", some (Jv.obj [("revision", Jv.str "2"), ("title", Jv.str "Foo")]),
   "world", false⟩

/-! ### History-deletion loop lemmas -/

/-- The deletion loop never resurrects an absent history item. -/
theorem delHistLoop_preserves_none (key : String) (histFails : Int → Bool)
    (q : String × Int) :
    ∀ (fuel : Nat) (start : Int) (h : List ((String × Int) × DynHistItem)),
      alookup h q = none →
      alookup (delHistLoop key histFails start fuel h) q = none := by
  intro fuel
  induction fuel with
  | zero => intro start h hq; exact hq
  | succ fuel ih =>
    intro start h hq
    rw [delHistLoop]
    apply ih
    rcases Decidable.em (histFails start = true) with hf | hf
    · simpa [hf] using hq
    · have hf' : histFails start = false := by
        cases hfe : histFails start
        · rfl
        · exact absurd hfe hf
      simp only [hf', if_false]
      exact alookup_filter_none _ _ _ hq

/-- Every revision in the loop's range whose `DeleteItem` does not fail is
removed. -/
theorem delHistLoop_deletes (key : String) (histFails : Int → Bool) :
    ∀ (fuel : Nat) (start : Int) (h : List ((String × Int) × DynHistItem))
      (i : Int), histFails i = false → start ≤ i → i < start + fuel →
      alookup (delHistLoop key histFails start fuel h) (key, i) = none := by
  intro fuel
  induction fuel with
  | zero => intro start h i _ h1 h2; omega
  | succ fuel ih =>
    intro start h i hfi h1 h2
    rw [delHistLoop]
    rcases Decidable.em (i = start) with heq | hne
    · subst heq
      simp only [hfi, if_false]
      apply delHistLoop_preserves_none
      exact alookup_aerase_self _ _
    · apply ih _ _ i hfi (by omega) (by omega)

/-! ### Delete characterizations -/

/-- Successful flat-file `Delete` of a non-exempt key whose current files
exist: writes one empty history file at the next revision, then removes the
`.meta` and `.tid` files, and reports success. -/
theorem ffDelete_eq {s : FlatStore} {key : String} {m : MetaB} {txt : String}
    (hskip : skipHistory key = false)
    (hm : alookup s.metaFiles (sanitizeKey key) = some m)
    (ht : alookup s.tidFiles (sanitizeKey key) = some txt) :
    ffDelete s key = (⟨aerase s.metaFiles (sanitizeKey key),
      aerase s.tidFiles (sanitizeKey key),
      awrite s.histFiles
        (histName (sanitizeKey key) (ffNextRevision s (sanitizeKey key))) none⟩,
      none) := by
  unfold ffDelete
  simp only [hskip, Bool.false_eq_true, if_false, hm, ht]

/-- DynamoDB `Delete` with the document item present and parsable, the
`GetItem` and document `DeleteItem` calls succeeding: removes the document
item, runs the history-deletion loop, and reports success whatever the
history `DeleteItem` outcomes. -/
theorem dynDelete_eq {d : DynDB} {key : String} {item : DynItem} {fs : JObj}
    {srev : String} {n : Int} (histFails : Int → Bool)
    (hlook : alookup d.tiddlers key = some item)
    (hmeta : item.Meta = some (Jv.obj fs))
    (hrev : jGet fs "revision" = some (Jv.str srev))
    (hatoi : goAtoi srev = some n) :
    dynDelete d false false histFails key =
      (⟨aerase d.tiddlers key, delHistLoop key histFails 1 n.toNat d.history⟩,
       none) := by
  unfold dynDelete dynGet
  rw [if_neg (by simp)]
  have hmo : metaObj item.Meta = some fs := by rw [hmeta]; rfl
  simp only [hlook, Bool.false_eq_true, if_false, hmo, hrev, hatoi]

/-- Some field value of the object is exactly the macro-tag string. -/
theorem jvHasTagMarker_of_mem {fs : JObj} {p : String × Jv} (hp : p ∈ fs)
    (hv : p.2 = Jv.str "$:/tags/Macro") : jvHasTagMarker (Jv.obj fs) = true := by
  have hstr : jvHasTagMarker p.2 = true := by
    rw [hv]
    simp [jvHasTagMarker]
  rw [jvHasTagMarker, List.any_eq_true]
  refine ⟨⟨p, hp⟩, List.mem_attach _ _, ?_⟩
  simp [hstr]

/-- The meta stored for the macro document after its `Put`. -/
def dynTaggedStoredMeta : MetaB :=
  some (Jv.obj [("revision", Jv.str "1"), ("title", Jv.str "M"),
    ("tags", Jv.str "$:/tags/Macro")])

/-! ### Claims -/

/-- C1 (counterexample): as stated the claim is false.  After two `Put`s of
`"Foo"` a successful flat-file `Delete("Foo")` leaves both history files
`Foo#1` and `Foo#2` in place. -/
theorem c1_counterexample :
    (ffDelete ffFoo2 "Foo").2 = none ∧
    (alookup (ffDelete ffFoo2 "Foo").1.histFiles (histName "Foo" 1)).isSome
      = true ∧
    (alookup (ffDelete ffFoo2 "Foo").1.histFiles (histName "Foo" 2)).isSome
      = true :=
  ⟨rfl, rfl, rfl⟩

/-- C1 (amended): flat-file `Delete` on a non-exempt key with current
files present succeeds, removes the `.meta` and `.tid` files, and leaves
every existing history file (in particular every revision 1..N) in place. -/
theorem c1_amended_delete_keeps_history {s : FlatStore} {key : String}
    {m : MetaB} {txt : String} (hskip : skipHistory key = false)
    (hm : alookup s.metaFiles (sanitizeKey key) = some m)
    (ht : alookup s.tidFiles (sanitizeKey key) = some txt) :
    (ffDelete s key).2 = none ∧
    alookup (ffDelete s key).1.metaFiles (sanitizeKey key) = none ∧
    alookup (ffDelete s key).1.tidFiles (sanitizeKey key) = none ∧
    ∀ p ∈ s.histFiles, p ∈ (ffDelete s key).1.histFiles := by
  rw [ffDelete_eq hskip hm ht]
  refine ⟨rfl, alookup_aerase_self _ _, alookup_aerase_self _ _, ?_⟩
  intro p hp
  rw [awrite_of_fresh _ _ _ (histName_next_fresh (sanitizeKey key) s)]
  exact List.mem_cons_of_mem _ hp

/-- C1 (witness): the amended statement at the two-`Put` scenario. -/
theorem c1_witness :
    (ffDelete ffFoo2 "Foo").2 = none ∧
    alookup (ffDelete ffFoo2 "Foo").1.metaFiles (sanitizeKey "Foo") = none ∧
    alookup (ffDelete ffFoo2 "Foo").1.tidFiles (sanitizeKey "Foo") = none ∧
    ∀ p ∈ ffFoo2.histFiles, p ∈ (ffDelete ffFoo2 "Foo").1.histFiles :=
  @c1_amended_delete_keeps_history ffFoo2 "Foo" fooMeta "world" rfl rfl rfl

/-- C2 (code bug): `Put` writes `tiddler.Meta` — the caller's original
bytes — to the `.meta` file instead of the marshalled object `data` into
which it just set the `revision` field, so after `Put({"title":"Foo"})`
the `.meta` file content has no `revision` field. -/
theorem c2_meta_file_without_revision :
    (ffPut ffEmpty fooPut1).toOption.map Prod.fst = some 1 ∧
    alookup ffFoo1.metaFiles "Foo" = some fooMeta ∧
    (metaObj fooMeta).map (fun js => jGet js "revision") = some none :=
  ⟨rfl, rfl, rfl⟩

/-- C3 (code bug): in `dynamodbStore.All` the `for _, t := range tiddlers`
loop sets `WithText` on a copy of each element, so a stored macro-tagged
document is returned with `WithText = false` (and with its text populated
like every other document), contradicting the claim and the function's own
comment. -/
theorem c3_dynamo_all_macro_skinny_bug :
    (dynAll dynTagged).map (fun t => (t.Key, t.WithText, t.Text))
      = [("M", false, "macro body")] ∧
    (dynAll dynTagged).map (fun t => t.Meta) = [dynTaggedStoredMeta] ∧
    metaHasTagMarker dynTaggedStoredMeta = true := by
  refine ⟨rfl, rfl, ?_⟩
  show jvHasTagMarker (Jv.obj [("revision", Jv.str "1"), ("title", Jv.str "M"),
    ("tags", Jv.str "$:/tags/Macro")]) = true
  exact jvHasTagMarker_of_mem
    (List.mem_cons_of_mem _ (List.mem_cons_of_mem _ (List.mem_cons_self _ _)))
    rfl

/-- C4 (counterexample): as stated the claim is false.  With the document
item for `"Foo"` present, a failing `GetItem` network call makes the
DynamoDB `Get` return the NotFound sentinel. -/
theorem c4_counterexample :
    (alookup dynFoo2.tiddlers "Foo").isSome = true ∧
    dynGet dynFoo2 true "Foo" = .error .notFound :=
  ⟨rfl, rfl⟩

/-- C4 (amended): flat-file `Get` returns NotFound exactly when the meta
or tid file is missing; DynamoDB `Get` returns NotFound whenever its
`GetItem` call fails (existing key or not), and returns the zero tiddler
with a nil error when the call succeeds on a missing key. -/
theorem c4_amended_notfound_semantics :
    (∀ (s : FlatStore) (key : String),
      ffGet s key = .error .notFound ↔
        (alookup s.metaFiles (sanitizeKey key) = none ∨
         alookup s.tidFiles (sanitizeKey key) = none)) ∧
    (∀ (d : DynDB) (key : String), dynGet d true key = .error .notFound) ∧
    (∀ (d : DynDB) (key : String), alookup d.tiddlers key = none →
      dynGet d false key = .ok ⟨"", none, "", true⟩) := by
  refine ⟨?_, ?_, ?_⟩
  · intro s key
    unfold ffGet
    cases h1 : alookup s.metaFiles (sanitizeKey key) with
    | none => simp [h1]
    | some m =>
      cases h2 : alookup s.tidFiles (sanitizeKey key) with
      | none => simp [h1, h2]
      | some txt => simp [h1, h2]
  · intro d key
    rfl
  · intro d key h
    unfold dynGet
    simp [h]

/-- C4 (witness): the amended statement at concrete stores. -/
theorem c4_witness :
    (ffGet ffEmpty "Nope" = .error .notFound ↔
      (alookup ffEmpty.metaFiles (sanitizeKey "Nope") = none ∨
       alookup ffEmpty.tidFiles (sanitizeKey "Nope") = none)) ∧
    dynGet dynEmpty true "X" = .error .notFound ∧
    dynGet dynEmpty false "X" = .ok ⟨"", none, "", true⟩ :=
  ⟨c4_amended_notfound_semantics.1 ffEmpty "Nope",
   c4_amended_notfound_semantics.2.1 dynEmpty "X",
   c4_amended_notfound_semantics.2.2 dynEmpty "X" rfl⟩

/-- C5 (counterexample): as stated over every key the claim is false.  Two
`Put`s of the history-exempt `$:/StoryList` both return revision 1 in both
backends, where the claim requires the second to return 2. -/
theorem c5_counterexample :
    (ffPutSeq ffEmpty [slPut1, slPut2]).map Prod.fst = some [1, 1] ∧
    (dynPutSeq dynEmpty [slPut1, slPut2]).map Prod.fst = some [1, 1] ∧
    (1 : Nat) ≠ 2 :=
  ⟨rfl, rfl, by decide⟩

/-- C5 (amended): restricted to non-exempt keys, a run of `Put`s on one
fresh key returns revisions 1, 2, 3, … (each one more than the previous)
in both backends. -/
theorem c5_amended_revision_sequence (k : String) (ts : List Tiddler)
    (hk : skipHistory k = false)
    (hts : ∀ t ∈ ts, t.Key = k ∧ (metaObj t.Meta).isSome) :
    (ffPutSeq ffEmpty ts).map Prod.fst
      = some ((List.range ts.length).map (fun i => 1 + i)) ∧
    (dynPutSeq dynEmpty ts).map Prod.fst
      = some ((List.range ts.length).map (fun (i : Nat) => 1 + (i : Int))) := by
  constructor
  · have h := ffPutSeq_revs_aux k hk ts ffEmpty hts
    have h1 : ffNextRevision ffEmpty (sanitizeKey k) = 1 := rfl
    rwa [h1] at h
  · have h := dynPutSeq_revs_aux k hk ts dynEmpty hts
    have h1 : dynNextRevision dynEmpty k = 1 := by
      unfold dynNextRevision
      split <;> rfl
    rwa [h1] at h

/-- C5 (witness): the amended statement at the two-`Put` scenario. -/
theorem c5_witness :
    (ffPutSeq ffEmpty [fooPut1, fooPut2]).map Prod.fst = some [1, 2] ∧
    (dynPutSeq dynEmpty [fooPut1, fooPut2]).map Prod.fst
      = some [(1 : Int), 2] := by
  obtain ⟨h1, h2⟩ := c5_amended_revision_sequence "Foo" [fooPut1, fooPut2]
    rfl (by decide)
  exact ⟨h1.trans rfl, h2.trans rfl⟩

/-- C6: a successful flat-file `Put` followed by `Get` on the same key
returns the same meta blob and the same text, with `WithText = true`. -/
theorem c6_put_get_roundtrip {s : FlatStore} {t : Tiddler} {r : Nat}
    {s' : FlatStore} (hput : ffPut s t = .ok (r, s')) :
    ffGet s' t.Key = .ok ⟨t.Key, t.Meta, t.Text, true⟩ := by
  cases hjs : metaObj t.Meta with
  | none =>
    rw [show ffPut s t = .error .ioError from by unfold ffPut; rw [hjs]] at hput
    cases hput
  | some js =>
    cases hsk : skipHistory t.Key with
    | true =>
      rw [ffPut_eq_skip hjs hsk] at hput
      obtain ⟨-, h2⟩ : r = ffNextRevision s (sanitizeKey t.Key) ∧
          s' = ⟨awrite s.metaFiles (sanitizeKey t.Key) t.Meta,
            awrite s.tidFiles (sanitizeKey t.Key) t.Text, s.histFiles⟩ := by
        injection hput with h
        injection h with h1 h2
        exact ⟨h1.symm, h2.symm⟩
      subst h2
      unfold ffGet
      simp [alookup_awrite_self]
    | false =>
      rw [ffPut_eq_hist hjs hsk] at hput
      obtain ⟨-, h2⟩ : r = ffNextRevision s (sanitizeKey t.Key) ∧
          s' = ⟨awrite s.metaFiles (sanitizeKey t.Key) t.Meta,
            awrite s.tidFiles (sanitizeKey t.Key) t.Text,
            awrite s.histFiles
              (histName (sanitizeKey t.Key)
                (ffNextRevision s (sanitizeKey t.Key)))
              (some (Jv.obj (jSet (jSet js "revision"
                (Jv.num (ffNextRevision s (sanitizeKey t.Key)))) "text"
                (Jv.str t.Text))))⟩ := by
        injection hput with h
        injection h with h1 h2
        exact ⟨h1.symm, h2.symm⟩
      subst h2
      unfold ffGet
      simp [alookup_awrite_self]

/-- C6 (witness): the round trip at the concrete first `Put`. -/
theorem c6_witness : ffGet ffFoo1 "Foo" = .ok ⟨"Foo", fooMeta, "hello", true⟩ := by
  have h : ffPut ffEmpty fooPut1 = .ok (1, ffFoo1) := rfl
  exact c6_put_get_roundtrip h

/-- C7: a run of `Put`s on history-exempt keys creates no history entry in
either backend. -/
theorem c7_exempt_no_history (ts : List Tiddler)
    (hex : ∀ t ∈ ts, skipHistory t.Key = true) :
    (∀ (s : FlatStore) (revs : List Nat) (s' : FlatStore),
      ffPutSeq s ts = some (revs, s') → s'.histFiles = s.histFiles) ∧
    (∀ (d : DynDB) (revs : List Int) (d' : DynDB),
      dynPutSeq d ts = some (revs, d') → d'.history = d.history) :=
  ⟨fun s revs s' h => ffPutSeq_hist_const ts s revs s' hex h,
   fun d revs d' h => dynPutSeq_hist_const ts d revs d' hex h⟩

/-- C7 (witness): two `Put`s of the story-list key leave both histories
empty. -/
theorem c7_witness :
    ffSL2.histFiles = ffEmpty.histFiles ∧ dynSL2.history = dynEmpty.history := by
  obtain ⟨h1, h2⟩ := c7_exempt_no_history [slPut1, slPut2] (by decide)
  exact ⟨h1 ffEmpty [1, 1] ffSL2 rfl, h2 dynEmpty [1, 1] dynSL2 rfl⟩

/-- C8: DynamoDB `Delete` on an existing, parsable document removes the
document item and reports success for every pattern of history `DeleteItem`
failures; each history revision in 1..N whose deletion call does not fail
is removed. -/
theorem c8_delete_best_effort (d : DynDB) (key : String) (item : DynItem)
    (fs : JObj) (srev : String) (n : Int) (histFails : Int → Bool)
    (hlook : alookup d.tiddlers key = some item)
    (hmeta : item.Meta = some (Jv.obj fs))
    (hrev : jGet fs "revision" = some (Jv.str srev))
    (hatoi : goAtoi srev = some n) :
    (dynDelete d false false histFails key).2 = none ∧
    alookup (dynDelete d false false histFails key).1.tiddlers key = none ∧
    ∀ i : Int, 1 ≤ i → i ≤ n → histFails i = false →
      alookup (dynDelete d false false histFails key).1.history (key, i)
        = none := by
  rw [dynDelete_eq histFails hlook hmeta hrev hatoi]
  refine ⟨rfl, alookup_aerase_self _ _, ?_⟩
  intro i h1 h2 hf
  exact delHistLoop_deletes key histFails n.toNat 1 d.history i hf h1 (by omega)

/-- C8 (witness): deleting `"Foo"` at revision 2 with the revision-1
history deletion failing still succeeds and removes the item and the
revision-2 history entry. -/
theorem c8_witness :
    (dynDelete dynFoo2 false false (fun i => i == 1) "Foo").2 = none ∧
    alookup (dynDelete dynFoo2 false false (fun i => i == 1) "Foo").1.tiddlers
      "Foo" = none ∧
    alookup (dynDelete dynFoo2 false false (fun i => i == 1) "Foo").1.history
      ("Foo", 2) = none := by
  have h := c8_delete_best_effort dynFoo2 "Foo" fooItem2
    [("revision", Jv.str "2"), ("title", Jv.str "Foo")] "2" 2
    (fun i => i == 1) rfl rfl rfl rfl
  exact ⟨h.1, h.2.1, h.2.2 2 (by decide) (by decide) rfl⟩

/-- C9: every DynamoDB `Put` of a history-exempt key returns revision 1,
whatever the current table state. -/
theorem c9_exempt_put_revision_one (d : DynDB) (t : Tiddler)
    (hskip : skipHistory t.Key = true) (hsome : (metaObj t.Meta).isSome) :
    (dynPut d t).toOption.map Prod.fst = some 1 := by
  obtain ⟨js, hjs⟩ := Option.isSome_iff_exists.mp hsome
  rw [dynPut_eq_skip hjs hskip]
  have h1 : dynNextRevision d t.Key = 1 := by
    unfold dynNextRevision
    rw [if_pos hskip]
  rw [h1]
  rfl

/-- C9 (witness): a second `Put` of the story-list key still returns 1. -/
theorem c9_witness : (dynPut dynSL1 slPut2).toOption.map Prod.fst = some 1 :=
  c9_exempt_put_revision_one dynSL1 slPut2 rfl rfl

/-- C10: flat-file `Delete` on a non-exempt key with current files present
leaves every previously written history file in place, additionally writes
one new empty history file named with the next revision (maximum existing
matching revision + 1), and removes the `.meta` and `.tid` files. -/
theorem c10_delete_adds_empty_history {s : FlatStore} {key : String}
    {m : MetaB} {txt : String} (hskip : skipHistory key = false)
    (hm : alookup s.metaFiles (sanitizeKey key) = some m)
    (ht : alookup s.tidFiles (sanitizeKey key) = some txt) :
    (ffDelete s key).1.histFiles
      = (histName (sanitizeKey key) (ffNextRevision s (sanitizeKey key)), none)
        :: s.histFiles ∧
    (ffDelete s key).2 = none ∧
    alookup (ffDelete s key).1.metaFiles (sanitizeKey key) = none ∧
    alookup (ffDelete s key).1.tidFiles (sanitizeKey key) = none := by
  rw [ffDelete_eq hskip hm ht]
  exact ⟨awrite_of_fresh _ _ _ (histName_next_fresh _ s), rfl,
    alookup_aerase_self _ _, alookup_aerase_self _ _⟩

/-- C10 (witness): the statement at the two-`Put` scenario. -/
theorem c10_witness :
    (ffDelete ffFoo2 "Foo").1.histFiles
      = (histName (sanitizeKey "Foo")
          (ffNextRevision ffFoo2 (sanitizeKey "Foo")), none)
        :: ffFoo2.histFiles ∧
    (ffDelete ffFoo2 "Foo").2 = none ∧
    alookup (ffDelete ffFoo2 "Foo").1.metaFiles (sanitizeKey "Foo") = none ∧
    alookup (ffDelete ffFoo2 "Foo").1.tidFiles (sanitizeKey "Foo") = none :=
  @c10_delete_adds_empty_history ffFoo2 "Foo" fooMeta "world" rfl rfl rfl

end Widdly
